import Mathlib

/-!
Verification of the sequence QC pipeline (`src/sequence_qc_summary.py`).

A row of the input table is modelled by the two columns the pipeline
reads: the sequence string and the integer length column.  Tables are
ordered lists of rows, matching the pandas DataFrame row order that the
script preserves through every filter.
-/

namespace QC

/-- One row of the input table: the sequence-column value and the
length-column value (`length` is a stored field, not recomputed). -/
structure Record where
  seq : String
  len : Int
deriving DecidableEq, Repr

/-- `filter_ambiguous` (lines 36-45): collects every sequence value whose
count of the character 'N' is at least 1 into `fail_list`, then splits the
table by `isin(fail_list)` membership on the sequence column. -/
def filter_ambiguous (dataset : List Record) : List Record × List Record × String :=
  let fail_list := (dataset.map (·.seq)).filter (fun s => 1 ≤ s.toList.count 'N')
  let removed_list := dataset.filter (fun r => fail_list.contains r.seq)
  let dataset_clean := dataset.filter (fun r => !(fail_list.contains r.seq))
  (dataset_clean, removed_list, "ambiguous_N")

/-- `filter_length` (lines 48-56): collects every length value strictly
below `min_length` into `fail_list`, then splits the table by
`isin(fail_list)` membership on the length column. -/
def filter_length (dataset : List Record) (min_length : Int) :
    List Record × List Record × String :=
  let fail_list := (dataset.map (·.len)).filter (fun v => v < min_length)
  let removed_list := dataset.filter (fun r => fail_list.contains r.len)
  let dataset_clean := dataset.filter (fun r => !(fail_list.contains r.len))
  (dataset_clean, removed_list, "short_length")

/-- Core of `filter_duplicate`: walk the table in order keeping the first
row for each sequence value (`dataset.duplicated(subset=seq_column,
keep='first')`), returning (kept, removed). `seen` is the set of sequence
values already encountered. -/
def dupSplit (seen : List String) : List Record → List Record × List Record
  | [] => ([], [])
  | r :: rs =>
    let rest := dupSplit (r.seq :: seen) rs
    if seen.contains r.seq then (rest.1, r :: rest.2) else (r :: rest.1, rest.2)

/-- `filter_duplicate` (lines 59-63): drop every row whose sequence value
already occurred earlier in the table, keeping the first occurrence. -/
def filter_duplicate (dataset : List Record) : List Record × List Record × String :=
  let split := dupSplit [] dataset
  (split.1, split.2, "duplicate")

/-- The orchestration (lines 72-77): ambiguous filter, then length filter
on its kept output, then duplicate filter, collecting each removed batch
with its reason in execution order. -/
def pipeline (dataset : List Record) (min_length : Int) :
    List Record × List (List Record × String) :=
  let a := filter_ambiguous dataset
  let b := filter_length a.1 min_length
  let c := filter_duplicate b.1
  (c.1, [(a.2.1, a.2.2), (b.2.1, b.2.2), (c.2.1, c.2.2)])

/-- The final kept table `data` after all three filters. -/
def finalKept (dataset : List Record) (min_length : Int) : List Record :=
  (pipeline dataset min_length).1

/-- One row of `removal_report`: sequence value, length value and the
`reason_removed` tag added at lines 83-88. -/
structure RemovalRow where
  seq : String
  len : Int
  reason : String
deriving DecidableEq, Repr

/-- Tag every row of a removed batch with its reason (lines 84-88). -/
def tagReason (batch : List Record × String) : List RemovalRow :=
  batch.1.map (fun r => ⟨r.seq, r.len, batch.2⟩)

/-- `removal_report` (line 91): concatenation of the tagged removed
batches in filter-execution order. -/
def removal_report (dataset : List Record) (min_length : Int) : List RemovalRow :=
  ((pipeline dataset min_length).2.map tagReason).flatten

/-- `r` is the first row of `table` carrying its sequence value. -/
def isFirstOccurrence (table : List Record) (r : Record) : Prop :=
  table.find? (fun x => x.seq == r.seq) = some r

instance (table : List Record) (r : Record) : Decidable (isFirstOccurrence table r) := by
  unfold isFirstOccurrence; infer_instance

/-- The kept table after the ambiguous and length filters, i.e. the input
to the duplicate filter. -/
def dedupInput (dataset : List Record) (min_length : Int) : List Record :=
  (filter_length (filter_ambiguous dataset).1 min_length).1

/-- The GC-percentage column (line 107): uppercase the sequence string,
count 'G' and 'C', divide by the string length and scale by 100.  Numeric
values are modelled as exact rationals. -/
def gc_percentage (s : String) : ℚ :=
  (((s.toList.map Char.toUpper).count 'G' : ℚ)
      + ((s.toList.map Char.toUpper).count 'C' : ℚ))
    / (s.toList.length : ℚ) * 100

/-- A value appearing in the metrics report.  `nan` is pandas' missing
float (e.g. the sample standard deviation of fewer than two values);
`sqrtRat q` stands for the irrational square root of the rational `q`,
the sample standard deviation of two or more values. -/
inductive MVal where
  | rat : ℚ → MVal
  | nan : MVal
  | sqrtRat : ℚ → MVal
deriving DecidableEq, Repr

/-- `Series.min` (line 123): NaN on an empty column. -/
def colMin : List ℚ → MVal
  | [] => .nan
  | x :: xs => .rat (xs.foldl min x)

/-- `Series.max` (line 124): NaN on an empty column. -/
def colMax : List ℚ → MVal
  | [] => .nan
  | x :: xs => .rat (xs.foldl max x)

/-- `Series.mean` (line 125): NaN on an empty column. -/
def colMean (l : List ℚ) : MVal :=
  if l.length = 0 then .nan else .rat (l.sum / l.length)

/-- Stable insertion of one value into an ascending list. -/
def insLe (x : ℚ) : List ℚ → List ℚ
  | [] => [x]
  | y :: ys => if y ≤ x then y :: insLe x ys else x :: y :: ys

/-- Ascending sort used to realise `Series.median`. -/
def sortQ (l : List ℚ) : List ℚ :=
  l.foldl (fun acc x => insLe x acc) []

/-- `Series.median` (line 126): middle of the sorted values, averaging the
two middle values for an even count; NaN on an empty column. -/
def colMedian (l : List ℚ) : MVal :=
  let s := sortQ l
  if s.length = 0 then .nan
  else if s.length % 2 = 1 then
    match s[s.length / 2]? with
    | some v => .rat v
    | none => .nan
  else
    match s[s.length / 2 - 1]?, s[s.length / 2]? with
    | some u, some v => .rat ((u + v) / 2)
    | _, _ => .nan

/-- The sample variance (divisor `n - 1`) of a column. -/
def sampleVar (l : List ℚ) : ℚ :=
  let n : ℚ := l.length
  let mean := l.sum / n
  ((l.map (fun x => (x - mean) ^ 2)).sum) / (n - 1)

/-- `Series.std` (line 127): sample standard deviation, NaN for fewer than
two values (pandas' `ddof=1`). -/
def colStd (l : List ℚ) : MVal :=
  if l.length ≤ 1 then .nan else .sqrtRat (sampleVar l)

/-- First-appearance-order list of the distinct values of a list, the
index of a pandas hash-table `value_counts`. -/
def dedupFirst : List String → List String → List String
  | _, [] => []
  | seen, x :: xs =>
    if seen.contains x then dedupFirst seen xs else x :: dedupFirst (x :: seen) xs

/-- Stable insertion into a list sorted by descending count: the new pair
goes after every pair whose count is at least as large. -/
def insertByCount (p : String × Nat) : List (String × Nat) → List (String × Nat)
  | [] => [p]
  | q :: qs => if p.2 ≤ q.2 then q :: insertByCount p qs else p :: q :: qs

/-- Stable sort by descending count (left-to-right insertion). -/
def sortByCountDesc (l : List (String × Nat)) : List (String × Nat) :=
  l.foldl (fun acc p => insertByCount p acc) []

/-- `value_counts` (line 100): count every distinct value and sort the
(value, count) pairs by descending count, ties keeping first-appearance
order. -/
def valueCounts (l : List String) : List (String × Nat) :=
  sortByCountDesc ((dedupFirst [] l).map (fun v => (v, l.count v)))

/-- Position of a reason in filter-execution order. -/
def execIdx : String → Nat
  | "ambiguous_N" => 0
  | "short_length" => 1
  | "duplicate" => 2
  | _ => 3

/-- Descending-count order with ties broken by filter-execution order:
the relation that consecutive `value_counts` entries satisfy. -/
def Rdesc (p q : String × Nat) : Prop :=
  q.2 < p.2 ∨ (p.2 = q.2 ∧ execIdx p.1 < execIdx q.1)

/-- Tie stability: on equal counts, the earlier entry belongs to the
earlier filter. -/
def Sfst (p q : String × Nat) : Prop :=
  p.2 = q.2 → execIdx p.1 < execIdx q.1

/-- The metrics report `summary_data` (lines 110-135): the five summary
statistics for the length column and the GC column, then `removed_rows`
and `fraction_rows` (lines 94-97), then one `removed_<reason>` entry per
`value_counts` pair. -/
def summaryMetrics (dataset : List Record) (min_length : Int) (length_column : String) :
    List (String × MVal) :=
  let data := finalKept dataset min_length
  let lens : List ℚ := data.map (fun r => (r.len : ℚ))
  let gcs : List ℚ := data.map (fun r => gc_percentage r.seq)
  let statBlock : String → List ℚ → List (String × MVal) := fun col vals =>
    [("min_" ++ col, colMin vals), ("max_" ++ col, colMax vals),
     ("mean_" ++ col, colMean vals), ("median_" ++ col, colMedian vals),
     ("std_" ++ col, colStd vals)]
  let removed_rows := (removal_report dataset min_length).length
  let fraction_rows : ℚ := ((removed_rows : ℚ) / (dataset.length : ℚ)) * 100
  let removed_reason_count := valueCounts ((removal_report dataset min_length).map (·.reason))
  statBlock length_column lens ++ statBlock "GC_percentage" gcs
    ++ [("removed_rows", .rat removed_rows), ("fraction_rows", .rat fraction_rows)]
    ++ removed_reason_count.map (fun p => ("removed_" ++ p.1, .rat (p.2 : ℚ)))

/-! ### Raw-table model of the script run

For the error-handling claims the input is modelled before any typing
assumption: a raw cell is a string, an integer, or a missing value, and a
row is an association list from column names to cells.  The run is
modelled as the list of report files written so far paired with the error
that stopped the run, if any, following the line order of the script. -/

/-- A raw cell of the tab-delimited input. -/
inductive Cell where
  | strv : String → Cell
  | intv : Int → Cell
  | missing : Cell
deriving DecidableEq, Repr

/-- A raw row: column name to cell. -/
def RawRow : Type := List (String × Cell)

/-- Column lookup within a row. -/
def getCell (row : RawRow) (col : String) : Option Cell :=
  (row.find? (fun p => p.1 == col)).map (·.2)

/-- The failure modes of the script: a designated column absent from the
table (pandas `KeyError`), a sequence cell that is not a string
(`seq.count` fails, line 39), a length cell that cannot be compared with
the integer threshold (line 51), and the division by a zero original row
count (line 97). -/
inductive QCError where
  | missingColumn : String → QCError
  | nonStringSequence : QCError
  | badLengthValue : QCError
  | divisionByZero : QCError
deriving DecidableEq, Repr

/-- Read a whole column as strings, failing on an absent column or a
non-string cell, as the loop at lines 38-41 does. -/
def readStrColumn (tbl : List RawRow) (col : String) : Except QCError (List String) :=
  tbl.mapM (fun row =>
    match getCell row col with
    | none => .error (.missingColumn col)
    | some (.strv s) => .ok s
    | some _ => .error .nonStringSequence)

/-- Read a whole column as integers, failing on an absent column or a
cell that is not an integer, as the loop at lines 50-52 does. -/
def readIntColumn (tbl : List RawRow) (col : String) : Except QCError (List Int) :=
  tbl.mapM (fun row =>
    match getCell row col with
    | none => .error (.missingColumn col)
    | some (.intv n) => .ok n
    | some _ => .error .badLengthValue)

/-- `filter_ambiguous` on raw rows: validate the sequence column, then
split by membership of the row's sequence value in the fail list. -/
def rawFilterAmbiguous (tbl : List RawRow) (seqCol : String) :
    Except QCError (List RawRow × List RawRow) := do
  let seqs ← readStrColumn tbl seqCol
  let fail_list := seqs.filter (fun s => 1 ≤ s.toList.count 'N')
  let tagged := tbl.zip seqs
  .ok ((tagged.filter (fun p => !(fail_list.contains p.2))).map (·.1),
       (tagged.filter (fun p => fail_list.contains p.2)).map (·.1))

/-- `filter_length` on raw rows: validate the length column, then split by
membership of the row's length value in the fail list. -/
def rawFilterLength (tbl : List RawRow) (lenCol : String) (min_length : Int) :
    Except QCError (List RawRow × List RawRow) := do
  let lens ← readIntColumn tbl lenCol
  let fail_list := lens.filter (fun v => v < min_length)
  let tagged := tbl.zip lens
  .ok ((tagged.filter (fun p => !(fail_list.contains p.2))).map (·.1),
       (tagged.filter (fun p => fail_list.contains p.2)).map (·.1))

/-- First-occurrence split of raw rows tagged with their sequence value. -/
def rawDupSplit : List String → List (RawRow × String) → List RawRow × List RawRow
  | _, [] => ([], [])
  | seen, p :: ps =>
    let rest := rawDupSplit (p.2 :: seen) ps
    if seen.contains p.2 then (rest.1, p.1 :: rest.2) else (p.1 :: rest.1, rest.2)

/-- `filter_duplicate` on raw rows: reads the sequence column again
(`duplicated(subset=seq_column)`), then keeps first occurrences. -/
def rawFilterDuplicate (tbl : List RawRow) (seqCol : String) :
    Except QCError (List RawRow × List RawRow) := do
  let seqs ← readStrColumn tbl seqCol
  .ok (rawDupSplit [] (tbl.zip seqs))

/-- The run, in the script's line order: the three filters (lines 72-77),
then `fraction_rows = removed_rows / original_rows * 100` (line 97, a
`ZeroDivisionError` when the input has no rows), then the removal-report
write (line 103), the metrics computation — which performs no fallible
operation on the already-validated columns — and the metrics-report write
(line 136).  The result is the list of report files written, paired with
the error that aborted the run, if any. -/
def runScript (tbl : List RawRow) (seqCol lenCol : String) (min_length : Int) :
    List String × Option QCError :=
  match rawFilterAmbiguous tbl seqCol with
  | .error e => ([], some e)
  | .ok (d1, _) =>
    match rawFilterLength d1 lenCol min_length with
    | .error e => ([], some e)
    | .ok (d2, _) =>
      match rawFilterDuplicate d2 seqCol with
      | .error e => ([], some e)
      | .ok _ =>
        if tbl.length = 0 then ([], some .divisionByZero)
        else (["QC_removal_report.tsv", "QC_metrics_report.csv"], none)

/- ### Partition lemmas -/

theorem filter_length_partition {α : Type} (p : α → Bool) (l : List α) :
    (l.filter p).length + (l.filter (fun a => !(p a))).length = l.length := by
  induction l with
  | nil => rfl
  | cons x xs ih =>
    cases h : p x <;> simp [List.filter_cons, h] <;> omega

theorem dupSplit_partition (seen : List String) (l : List Record) :
    (dupSplit seen l).1.length + (dupSplit seen l).2.length = l.length := by
  induction l generalizing seen with
  | nil => rfl
  | cons r rs ih =>
    have h2 := ih (r.seq :: seen)
    by_cases h : r.seq ∈ seen <;> simp [dupSplit, h] <;> omega

theorem filter_partition_count {α : Type} [DecidableEq α] (p : α → Bool) (l : List α)
    (x : α) :
    (l.filter p).count x + (l.filter (fun a => !(p a))).count x = l.count x := by
  cases h : p x with
  | true =>
    have h1 : (l.filter p).count x = l.count x := List.count_filter h
    have h2 : (l.filter (fun a => !(p a))).count x = 0 :=
      List.count_eq_zero_of_not_mem (by simp [List.mem_filter, h])
    omega
  | false =>
    have h1 : (l.filter (fun a => !(p a))).count x = l.count x :=
      List.count_filter (by simp [h])
    have h2 : (l.filter p).count x = 0 :=
      List.count_eq_zero_of_not_mem (by simp [List.mem_filter, h])
    omega

theorem dupSplit_partition_count (seen : List String) (l : List Record) (x : Record) :
    (dupSplit seen l).1.count x + (dupSplit seen l).2.count x = l.count x := by
  induction l generalizing seen with
  | nil => rfl
  | cons r rs ih =>
    have h2 := ih (r.seq :: seen)
    by_cases hx : r = x
    · subst hx
      by_cases h : r.seq ∈ seen <;> simp [dupSplit, List.count_cons, h] <;> omega
    · by_cases h : r.seq ∈ seen <;>
        simp [dupSplit, List.count_cons, h, hx, Ne.symm hx] <;> omega

/-- **C1.** For every input table, the number of rows in the concatenated
removal report plus the number of rows in the final kept table equals the
original row count; and each of the three filter stages partitions its
input into disjoint kept and removed tables whose union is the stage's
input (stated by row-identity multiplicity: for every row value, its
multiplicities in kept and removed sum to its multiplicity in the input). -/
theorem c1_report_plus_kept_eq_input (dataset : List Record) (min_length : Int) :
    (removal_report dataset min_length).length + (finalKept dataset min_length).length
        = dataset.length
    ∧ (∀ t : List Record, ∀ x : Record,
        (filter_ambiguous t).1.count x + (filter_ambiguous t).2.1.count x = t.count x)
    ∧ (∀ t : List Record, ∀ m : Int, ∀ x : Record,
        (filter_length t m).1.count x + (filter_length t m).2.1.count x = t.count x)
    ∧ (∀ t : List Record, ∀ x : Record,
        (filter_duplicate t).1.count x + (filter_duplicate t).2.1.count x = t.count x) := by
  refine ⟨?_, ?_, ?_, ?_⟩
  · have ha := filter_length_partition
      (fun r : Record =>
        !(((dataset.map (·.seq)).filter (fun s => 1 ≤ s.toList.count 'N')).contains r.seq))
      dataset
    have hb := filter_length_partition
      (fun r : Record =>
        !((((filter_ambiguous dataset).1.map (·.len)).filter
            (fun v => v < min_length)).contains r.len))
      (filter_ambiguous dataset).1
    have hc := dupSplit_partition [] (filter_length (filter_ambiguous dataset).1 min_length).1
    simp only [removal_report, finalKept, pipeline, filter_ambiguous, filter_length,
      filter_duplicate, tagReason, List.map_cons, List.map_nil, List.flatten,
      List.length_append, List.length_map, List.length_nil, Bool.not_not] at *
    omega
  · intro t x
    have := filter_partition_count
      (fun r : Record =>
        !(((t.map (·.seq)).filter (fun s => 1 ≤ s.toList.count 'N')).contains r.seq)) t x
    simp only [filter_ambiguous, Bool.not_not] at *
    omega
  · intro t m x
    have := filter_partition_count
      (fun r : Record =>
        !(((t.map (·.len)).filter (fun v => v < m)).contains r.len)) t x
    simp only [filter_length, Bool.not_not] at *
    omega
  · intro t x
    exact dupSplit_partition_count [] t x

/-- The concrete input table of Scenario A. -/
def scenarioA : List Record :=
  [⟨"ACGT", 4⟩, ⟨"ACGN", 4⟩, ⟨"AC", 2⟩, ⟨"ACGT", 4⟩]

/-- **C3.** On Scenario A with `min_length = 3` the removal report has
exactly the three rows ACGN/ambiguous_N, AC/short_length and the second
ACGT/duplicate, in that order, and the final kept table is exactly
`[("ACGT", 4)]`. -/
theorem c3_scenarioA :
    removal_report scenarioA 3
        = [⟨"ACGN", 4, "ambiguous_N"⟩, ⟨"AC", 2, "short_length"⟩, ⟨"ACGT", 4, "duplicate"⟩]
    ∧ finalKept scenarioA 3 = [⟨"ACGT", 4⟩] := by
  constructor <;> rfl

/- ### Membership lemmas for the kept tables -/

theorem not_mem_of_contains_eq_false {α : Type} [BEq α] [LawfulBEq α] {l : List α}
    {a : α} (h : l.contains a = false) : a ∉ l := by
  intro hm
  have h2 : l.contains a = true := List.elem_eq_true_of_mem hm
  rw [h2] at h
  exact Bool.noConfusion h

theorem mem_ambiguous_kept {t : List Record} {r : Record}
    (h : r ∈ (filter_ambiguous t).1) : r ∈ t ∧ r.seq.toList.count 'N' = 0 := by
  simp only [filter_ambiguous] at h
  rw [List.mem_filter] at h
  refine ⟨h.1, ?_⟩
  by_contra hc
  have h1 : 1 ≤ r.seq.toList.count 'N' := by omega
  have hmem : r.seq ∈ (t.map (·.seq)).filter (fun s => 1 ≤ s.toList.count 'N') := by
    rw [List.mem_filter]
    exact ⟨List.mem_map_of_mem _ h.1, by simpa using h1⟩
  have h2 := h.2
  simp only [Bool.not_eq_true'] at h2
  exact absurd hmem (not_mem_of_contains_eq_false h2)

theorem mem_length_kept {t : List Record} {m : Int} {r : Record}
    (h : r ∈ (filter_length t m).1) : r ∈ t ∧ m ≤ r.len := by
  simp only [filter_length] at h
  rw [List.mem_filter] at h
  refine ⟨h.1, ?_⟩
  by_contra hc
  push_neg at hc
  have hmem : r.len ∈ (t.map (·.len)).filter (fun v => v < m) := by
    rw [List.mem_filter]
    exact ⟨List.mem_map_of_mem _ h.1, by simpa using hc⟩
  have h2 := h.2
  simp only [Bool.not_eq_true'] at h2
  exact absurd hmem (not_mem_of_contains_eq_false h2)

theorem dupSplit_kept_spec :
    ∀ (seen : List String) (l : List Record) (r : Record),
      r ∈ (dupSplit seen l).1 →
      r.seq ∉ seen ∧ l.find? (fun x => x.seq == r.seq) = some r := by
  intro seen l
  induction l generalizing seen with
  | nil => intro r hr; simp [dupSplit] at hr
  | cons a as ih =>
    intro r hr
    by_cases h : a.seq ∈ seen
    · simp only [dupSplit] at hr
      rw [if_pos (List.elem_eq_true_of_mem h)] at hr
      obtain ⟨hns, hfind⟩ := ih (a.seq :: seen) r hr
      have hne : ¬ ((a.seq == r.seq) = true) := by
        simp only [beq_iff_eq]
        intro he
        exact hns (by rw [← he]; exact List.mem_cons_self _ _)
      refine ⟨fun hs => hns (List.mem_cons_of_mem _ hs), ?_⟩
      rw [List.find?_cons_of_neg as hne]
      exact hfind
    · simp only [dupSplit] at hr
      rw [if_neg (fun hc => h (List.mem_of_elem_eq_true hc))] at hr
      rcases List.mem_cons.mp hr with rfl | hr'
      · exact ⟨h, List.find?_cons_of_pos as (by simp)⟩
      · obtain ⟨hns, hfind⟩ := ih (a.seq :: seen) r hr'
        have hne : ¬ ((a.seq == r.seq) = true) := by
          simp only [beq_iff_eq]
          intro he
          exact hns (by rw [← he]; exact List.mem_cons_self _ _)
        refine ⟨fun hs => hns (List.mem_cons_of_mem _ hs), ?_⟩
        rw [List.find?_cons_of_neg as hne]
        exact hfind

theorem finalKept_eq_dupSplit (t : List Record) (m : Int) :
    finalKept t m = (dupSplit [] (dedupInput t m)).1 := rfl

theorem finalKept_spec (t : List Record) (m : Int) (r : Record)
    (hr : r ∈ finalKept t m) :
    r ∈ t ∧ r.seq.toList.count 'N' = 0 ∧ m ≤ r.len
    ∧ (dedupInput t m).find? (fun x => x.seq == r.seq) = some r := by
  rw [finalKept_eq_dupSplit] at hr
  obtain ⟨-, hfind⟩ := dupSplit_kept_spec [] (dedupInput t m) r hr
  have hmem2 : r ∈ dedupInput t m := List.mem_of_find?_eq_some hfind
  obtain ⟨hmem1, hlen⟩ := mem_length_kept hmem2
  obtain ⟨hmem0, hN⟩ := mem_ambiguous_kept hmem1
  exact ⟨hmem0, hN, hlen, hfind⟩

/-- **C2 (counterexample).** The claim fails as stated: on the input
`[("AAAA", 2), ("AAAA", 4)]` with `min_length = 3` the length filter
removes the first copy of `"AAAA"`, so the final kept table is the second
copy, which is not the first occurrence of its sequence string in the
original input order. -/
theorem c2_counterexample :
    ¬ (∀ (t : List Record) (m : Int), ∀ r ∈ finalKept t m,
        r.seq.toList.count 'N' = 0 ∧ m ≤ r.len ∧ isFirstOccurrence t r) := by
  intro hclaim
  have h := (hclaim [⟨"AAAA", 2⟩, ⟨"AAAA", 4⟩] 3 ⟨"AAAA", 4⟩ (by decide)).2.2
  exact absurd h (by decide)

/-- **C2 (amended).** Every row of the final kept table contains no
uppercase 'N' in its sequence field and has its length-column value
`≥ min_length`; it is the first occurrence of its exact sequence string
— in input order — among the rows that survived the ambiguous and length
filters (the duplicate filter's input), which coincides with first
occurrence in the original input only when no earlier row with the same
sequence was removed by an earlier filter. -/
theorem c2_kept_row_properties (t : List Record) (m : Int) (r : Record)
    (hr : r ∈ finalKept t m) :
    r.seq.toList.count 'N' = 0 ∧ m ≤ r.len ∧ isFirstOccurrence (dedupInput t m) r := by
  obtain ⟨-, hN, hlen, hfind⟩ := finalKept_spec t m r hr
  exact ⟨hN, hlen, hfind⟩

/-- Witness for the amended C2 at Scenario A. -/
theorem c2_kept_row_properties_witness :
    ((⟨"ACGT", 4⟩ : Record) ∈ finalKept scenarioA 3)
    ∧ ((⟨"ACGT", 4⟩ : Record).seq.toList.count 'N' = 0
        ∧ (3 : Int) ≤ (⟨"ACGT", 4⟩ : Record).len
        ∧ isFirstOccurrence (dedupInput scenarioA 3) ⟨"ACGT", 4⟩) :=
  ⟨by decide, c2_kept_row_properties scenarioA 3 ⟨"ACGT", 4⟩ (by decide)⟩

/- ### Idempotence of the filter pipeline -/

theorem contains_eq_false_of_not_mem {α : Type} [BEq α] [LawfulBEq α] {l : List α}
    {a : α} (h : a ∉ l) : l.contains a = false := by
  cases hc : l.contains a
  · rfl
  · exact absurd (List.mem_of_elem_eq_true hc) h

theorem ambiguous_not_mem_fail {l : List Record} (h : ∀ r ∈ l, r.seq.toList.count 'N' = 0)
    {r : Record} (hr : r ∈ l) :
    r.seq ∉ (l.map (·.seq)).filter (fun s => 1 ≤ s.toList.count 'N') := by
  intro hmem
  rw [List.mem_filter] at hmem
  have h0 := h r hr
  have h1 : 1 ≤ r.seq.toList.count 'N' := by simpa using hmem.2
  omega

theorem filter_ambiguous_kept_id {l : List Record}
    (h : ∀ r ∈ l, r.seq.toList.count 'N' = 0) : (filter_ambiguous l).1 = l := by
  simp only [filter_ambiguous]
  apply List.filter_eq_self.mpr
  intro r hr
  rw [contains_eq_false_of_not_mem (ambiguous_not_mem_fail h hr)]
  rfl

theorem filter_ambiguous_removed_nil {l : List Record}
    (h : ∀ r ∈ l, r.seq.toList.count 'N' = 0) : (filter_ambiguous l).2.1 = [] := by
  simp only [filter_ambiguous]
  apply List.filter_eq_nil_iff.mpr
  intro r hr
  rw [contains_eq_false_of_not_mem (ambiguous_not_mem_fail h hr)]
  simp

theorem length_not_mem_fail {l : List Record} {m : Int} (h : ∀ r ∈ l, m ≤ r.len)
    {r : Record} (hr : r ∈ l) :
    r.len ∉ (l.map (·.len)).filter (fun v => v < m) := by
  intro hmem
  rw [List.mem_filter] at hmem
  have h0 := h r hr
  have h1 : r.len < m := by simpa using hmem.2
  omega

theorem filter_length_kept_id {l : List Record} {m : Int}
    (h : ∀ r ∈ l, m ≤ r.len) : (filter_length l m).1 = l := by
  simp only [filter_length]
  apply List.filter_eq_self.mpr
  intro r hr
  rw [contains_eq_false_of_not_mem (length_not_mem_fail h hr)]
  rfl

theorem filter_length_removed_nil {l : List Record} {m : Int}
    (h : ∀ r ∈ l, m ≤ r.len) : (filter_length l m).2.1 = [] := by
  simp only [filter_length]
  apply List.filter_eq_nil_iff.mpr
  intro r hr
  rw [contains_eq_false_of_not_mem (length_not_mem_fail h hr)]
  simp

theorem dupSplit_eq_of_nodup :
    ∀ (seen : List String) (l : List Record),
      (∀ r ∈ l, r.seq ∉ seen) → (l.map (·.seq)).Nodup → dupSplit seen l = (l, []) := by
  intro seen l
  induction l generalizing seen with
  | nil => intro _ _; rfl
  | cons a as ih =>
    intro hseen hnd
    have hnd' : a.seq ∉ as.map (·.seq) ∧ (as.map (·.seq)).Nodup := by
      rw [List.map_cons, List.nodup_cons] at hnd
      exact hnd
    simp only [dupSplit]
    rw [if_neg (fun hc =>
      (hseen a (List.mem_cons_self a as)) (List.mem_of_elem_eq_true hc))]
    have hrest : dupSplit (a.seq :: seen) as = (as, []) := by
      apply ih
      · intro r hrm
        simp only [List.mem_cons]
        rintro (he | hs)
        · exact hnd'.1 (by rw [← he]; exact List.mem_map_of_mem _ hrm)
        · exact hseen r (List.mem_cons_of_mem _ hrm) hs
      · exact hnd'.2
    rw [hrest]

theorem dupSplit_kept_nodup :
    ∀ (seen : List String) (l : List Record), ((dupSplit seen l).1.map (·.seq)).Nodup := by
  intro seen l
  induction l generalizing seen with
  | nil => simp [dupSplit]
  | cons a as ih =>
    by_cases h : a.seq ∈ seen
    · simp only [dupSplit]
      rw [if_pos (List.elem_eq_true_of_mem h)]
      exact ih (a.seq :: seen)
    · simp only [dupSplit]
      rw [if_neg (fun hc => h (List.mem_of_elem_eq_true hc))]
      show ((a :: (dupSplit (a.seq :: seen) as).1).map (·.seq)).Nodup
      rw [List.map_cons, List.nodup_cons]
      constructor
      · intro hmem
        obtain ⟨r, hrk, hre⟩ := List.mem_map.mp hmem
        have hspec := (dupSplit_kept_spec (a.seq :: seen) as r hrk).1
        exact hspec (by rw [hre]; exact List.mem_cons_self _ _)
      · exact ih (a.seq :: seen)

theorem finalKept_seq_nodup (t : List Record) (m : Int) :
    ((finalKept t m).map (·.seq)).Nodup := by
  rw [finalKept_eq_dupSplit]
  exact dupSplit_kept_nodup [] (dedupInput t m)

/-- **C6.** The filter pipeline is idempotent: running the three filters a
second time, with the same `min_length`, on the final kept table produced
by the first run removes zero rows (the removal report of the second run
is empty) and returns the same kept table. -/
theorem c6_pipeline_idempotent (t : List Record) (m : Int) :
    removal_report (finalKept t m) m = []
    ∧ finalKept (finalKept t m) m = finalKept t m := by
  have hprops : ∀ r ∈ finalKept t m, r.seq.toList.count 'N' = 0 ∧ m ≤ r.len := by
    intro r hr
    obtain ⟨-, hN, hlen, -⟩ := finalKept_spec t m r hr
    exact ⟨hN, hlen⟩
  have hA1 : (filter_ambiguous (finalKept t m)).1 = finalKept t m :=
    filter_ambiguous_kept_id (fun r hr => (hprops r hr).1)
  have hA2 : (filter_ambiguous (finalKept t m)).2.1 = [] :=
    filter_ambiguous_removed_nil (fun r hr => (hprops r hr).1)
  have hB1 : (filter_length (finalKept t m) m).1 = finalKept t m :=
    filter_length_kept_id (fun r hr => (hprops r hr).2)
  have hB2 : (filter_length (finalKept t m) m).2.1 = [] :=
    filter_length_removed_nil (fun r hr => (hprops r hr).2)
  have hC : dupSplit [] (finalKept t m) = (finalKept t m, []) :=
    dupSplit_eq_of_nodup [] _ (by simp) (finalKept_seq_nodup t m)
  constructor
  · show ((pipeline (finalKept t m) m).2.map tagReason).flatten = []
    simp only [pipeline, filter_duplicate]
    rw [hA1, hA2, hB1, hB2, hC]
    simp [tagReason]
  · show (pipeline (finalKept t m) m).1 = finalKept t m
    simp only [pipeline, filter_duplicate]
    rw [hA1, hB1, hC]

/- ### value_counts: membership, descending order, tie stability -/

theorem mem_dedupFirst :
    ∀ (seen l : List String) (x : String),
      x ∈ dedupFirst seen l ↔ (x ∈ l ∧ x ∉ seen) := by
  intro seen l
  induction l generalizing seen with
  | nil => intro x; simp [dedupFirst]
  | cons a as ih =>
    intro x
    by_cases h : a ∈ seen
    · simp only [dedupFirst]
      rw [if_pos (List.elem_eq_true_of_mem h)]
      rw [ih seen x]
      constructor
      · rintro ⟨hx, hs⟩
        exact ⟨List.mem_cons_of_mem _ hx, hs⟩
      · rintro ⟨hx, hs⟩
        rcases List.mem_cons.mp hx with rfl | hx'
        · exact absurd h hs
        · exact ⟨hx', hs⟩
    · simp only [dedupFirst]
      rw [if_neg (fun hc => h (List.mem_of_elem_eq_true hc))]
      constructor
      · intro hx
        rcases List.mem_cons.mp hx with rfl | hx'
        · exact ⟨List.mem_cons_self _ _, h⟩
        · obtain ⟨h1, h2⟩ := (ih (a :: seen) x).mp hx'
          exact ⟨List.mem_cons_of_mem _ h1,
            fun hs => h2 (List.mem_cons_of_mem _ hs)⟩
      · rintro ⟨hx, hs⟩
        rcases List.mem_cons.mp hx with rfl | hx'
        · exact List.mem_cons_self _ _
        · by_cases hxa : x = a
          · rw [hxa]; exact List.mem_cons_self _ _
          · refine List.mem_cons_of_mem _ ((ih (a :: seen) x).mpr ⟨hx', ?_⟩)
            intro hm
            rcases List.mem_cons.mp hm with he | hm'
            · exact hxa he
            · exact hs hm'

theorem mem_insertByCount {y x : String × Nat} :
    ∀ {acc : List (String × Nat)},
      y ∈ insertByCount x acc ↔ y = x ∨ y ∈ acc := by
  intro acc
  induction acc with
  | nil => simp [insertByCount]
  | cons q qs ih =>
    simp only [insertByCount]
    by_cases hle : x.2 ≤ q.2
    · rw [if_pos hle]
      rw [List.mem_cons, ih, List.mem_cons]
      tauto
    · rw [if_neg hle]
      rw [List.mem_cons, List.mem_cons]

theorem insertByCount_perm (x : String × Nat) (acc : List (String × Nat)) :
    (insertByCount x acc).Perm (x :: acc) := by
  induction acc with
  | nil => exact List.Perm.refl _
  | cons q qs ih =>
    simp only [insertByCount]
    by_cases hle : x.2 ≤ q.2
    · rw [if_pos hle]
      exact (ih.cons q).trans (List.Perm.swap x q qs)
    · rw [if_neg hle]

theorem foldl_insert_perm :
    ∀ (xs acc : List (String × Nat)),
      (xs.foldl (fun a p => insertByCount p a) acc).Perm (acc ++ xs) := by
  intro xs
  induction xs with
  | nil => intro acc; simp
  | cons x xs ih =>
    intro acc
    simp only [List.foldl_cons]
    exact ((ih (insertByCount x acc)).trans
      ((insertByCount_perm x acc).append_right xs)).trans List.perm_middle.symm

theorem sortByCountDesc_perm (l : List (String × Nat)) :
    (sortByCountDesc l).Perm l := by
  have h := foldl_insert_perm l []
  simpa [sortByCountDesc] using h

theorem mem_valueCounts {l : List String} {v : String} {n : Nat} :
    (v, n) ∈ valueCounts l ↔ (v ∈ l ∧ n = l.count v) := by
  unfold valueCounts
  rw [(sortByCountDesc_perm _).mem_iff]
  constructor
  · intro h
    obtain ⟨u, hu, he⟩ := List.mem_map.mp h
    obtain ⟨he1, he2⟩ := Prod.mk.injEq .. ▸ he
    subst he1
    exact ⟨((mem_dedupFirst [] l u).mp hu).1, he2.symm⟩
  · rintro ⟨hv, rfl⟩
    exact List.mem_map.mpr ⟨v, (mem_dedupFirst [] l v).mpr ⟨hv, by simp⟩, rfl⟩

theorem insertByCount_pairwise {x : String × Nat} {acc : List (String × Nat)}
    (hacc : acc.Pairwise Rdesc)
    (hx : ∀ q ∈ acc, Sfst q x) :
    (insertByCount x acc).Pairwise Rdesc := by
  induction acc with
  | nil => simp [insertByCount]
  | cons q qs ih =>
    rw [List.pairwise_cons] at hacc
    obtain ⟨hq, hqs⟩ := hacc
    simp only [insertByCount]
    by_cases hle : x.2 ≤ q.2
    · rw [if_pos hle]
      rw [List.pairwise_cons]
      constructor
      · intro y hy
        rcases mem_insertByCount.mp hy with rfl | hy'
        · rcases lt_or_eq_of_le hle with hlt | heq
          · exact Or.inl hlt
          · exact Or.inr ⟨heq.symm, hx q (List.mem_cons_self _ _) heq.symm⟩
        · exact hq y hy'
      · exact ih hqs (fun p hp => hx p (List.mem_cons_of_mem _ hp))
    · rw [if_neg hle]
      push_neg at hle
      rw [List.pairwise_cons]
      constructor
      · intro y hy
        rcases List.mem_cons.mp hy with rfl | hy'
        · exact Or.inl hle
        · rcases hq y hy' with h1 | h2
          · exact Or.inl (lt_trans h1 hle)
          · exact Or.inl (by rw [← h2.1]; exact hle)
      · rw [List.pairwise_cons]
        exact ⟨hq, hqs⟩

theorem foldl_insert_pairwise :
    ∀ (xs acc : List (String × Nat)),
      acc.Pairwise Rdesc → xs.Pairwise Sfst →
      (∀ x ∈ xs, ∀ q ∈ acc, Sfst q x) →
      (xs.foldl (fun a p => insertByCount p a) acc).Pairwise Rdesc := by
  intro xs
  induction xs with
  | nil => intro acc h _ _; simpa using h
  | cons x xs ih =>
    intro acc hacc hxs hcross
    rw [List.pairwise_cons] at hxs
    simp only [List.foldl_cons]
    apply ih
    · exact insertByCount_pairwise hacc (fun q hq => hcross x (List.mem_cons_self _ _) q hq)
    · exact hxs.2
    · intro y hy q hq
      rcases mem_insertByCount.mp hq with rfl | hq'
      · exact hxs.1 y hy
      · exact hcross y (List.mem_cons_of_mem _ hy) q hq'

theorem valueCounts_pairwise_of_exec (l : List String)
    (h : (dedupFirst [] l).Pairwise (fun u v => execIdx u < execIdx v)) :
    (valueCounts l).Pairwise Rdesc := by
  unfold valueCounts
  apply foldl_insert_pairwise
  · exact List.Pairwise.nil
  · rw [List.pairwise_map]
    exact h.imp (fun huv => fun _ => huv)
  · intro x hx q hq
    exact absurd hq (List.not_mem_nil q)

theorem map_reason_tagReason (l : List Record) (s : String) :
    (tagReason (l, s)).map (·.reason) = List.replicate l.length s := by
  induction l with
  | nil => rfl
  | cons a as ih =>
    simp only [tagReason, List.map_cons, List.length_cons, List.replicate_succ] at *
    rw [ih]

theorem removal_report_eq (t : List Record) (m : Int) :
    removal_report t m
      = tagReason ((filter_ambiguous t).2.1, "ambiguous_N")
        ++ (tagReason ((filter_length (filter_ambiguous t).1 m).2.1, "short_length")
        ++ tagReason ((filter_duplicate (dedupInput t m)).2.1, "duplicate")) := by
  simp only [removal_report, pipeline, dedupInput, List.map_cons, List.map_nil,
    List.flatten_cons, List.flatten_nil, List.append_nil]
  rfl

theorem reasons_eq (t : List Record) (m : Int) :
    (removal_report t m).map (·.reason)
      = List.replicate (filter_ambiguous t).2.1.length "ambiguous_N"
        ++ (List.replicate (filter_length (filter_ambiguous t).1 m).2.1.length
              "short_length"
        ++ List.replicate (filter_duplicate (dedupInput t m)).2.1.length "duplicate") := by
  rw [removal_report_eq]
  simp only [List.map_append, map_reason_tagReason]

theorem dedupFirst_of_mem {seen : List String} {x : String} (n : Nat)
    (h : x ∈ seen) (rest : List String) :
    dedupFirst seen (List.replicate n x ++ rest) = dedupFirst seen rest := by
  induction n with
  | zero => simp
  | succ k ih =>
    simp only [List.replicate_succ, List.cons_append, dedupFirst]
    rw [if_pos (List.elem_eq_true_of_mem h)]
    exact ih

theorem dedupFirst_of_not_mem {seen : List String} {x : String} {n : Nat}
    (hn : 1 ≤ n) (h : x ∉ seen) (rest : List String) :
    dedupFirst seen (List.replicate n x ++ rest)
      = x :: dedupFirst (x :: seen) rest := by
  cases n with
  | zero => omega
  | succ k =>
    simp only [List.replicate_succ, List.cons_append, dedupFirst]
    rw [if_neg (fun hc => h (List.mem_of_elem_eq_true hc))]
    congr 1
    exact dedupFirst_of_mem k (List.mem_cons_self _ _) rest

theorem dedupFirst_replicate (seen : List String) (n : Nat) (x : String)
    (h : x ∉ seen) :
    dedupFirst seen (List.replicate n x)
      = if 1 ≤ n then [x] else [] := by
  by_cases hn : 1 ≤ n
  · rw [if_pos hn]
    have := dedupFirst_of_not_mem hn h ([] : List String)
    simpa using this
  · have hn0 : n = 0 := by omega
    subst hn0
    simp [dedupFirst]

theorem dedup_triple_pairwise (a b c : Nat) :
    (dedupFirst [] (List.replicate a "ambiguous_N"
      ++ (List.replicate b "short_length" ++ List.replicate c "duplicate"))).Pairwise
      (fun u v => execIdx u < execIdx v) := by
  rcases Nat.eq_zero_or_pos a with ha | ha
  · subst ha
    rw [List.replicate_zero, List.nil_append]
    rcases Nat.eq_zero_or_pos b with hb | hb
    · subst hb
      rw [List.replicate_zero, List.nil_append]
      rw [dedupFirst_replicate [] c "duplicate" (by simp)]
      by_cases hc : 1 ≤ c
      · rw [if_pos hc]; decide
      · rw [if_neg hc]; decide
    · rw [dedupFirst_of_not_mem hb (by simp) _]
      rw [dedupFirst_replicate _ c "duplicate" (by decide)]
      by_cases hc : 1 ≤ c
      · rw [if_pos hc]; decide
      · rw [if_neg hc]; decide
  · rw [dedupFirst_of_not_mem ha (by simp) _]
    rcases Nat.eq_zero_or_pos b with hb | hb
    · subst hb
      rw [List.replicate_zero, List.nil_append]
      rw [dedupFirst_replicate _ c "duplicate" (by decide)]
      by_cases hc : 1 ≤ c
      · rw [if_pos hc]; decide
      · rw [if_neg hc]; decide
    · rw [dedupFirst_of_not_mem hb (by decide) _]
      rw [dedupFirst_replicate _ c "duplicate" (by decide)]
      by_cases hc : 1 ≤ c
      · rw [if_pos hc]; decide
      · rw [if_neg hc]; decide

/-- **C4.** The `value_counts` table of removal reasons (the source of the
`removed_<reason>` metric entries) contains a pair `(reason, n)` exactly
when `n ≥ 1` and `n` is the number of rows removed for that reason; its
entries are in descending order of removal count with ties broken by
filter-execution order (`ambiguous_N`, then `short_length`, then
`duplicate`); and each pair is emitted into the metrics report as a
`removed_<reason>` entry.  A reason with zero removals therefore has no
entry. -/
theorem c4_removed_reason_entries (t : List Record) (m : Int) (lc : String) :
    (∀ v n, (v, n) ∈ valueCounts ((removal_report t m).map (·.reason)) ↔
        (1 ≤ n ∧ n = ((removal_report t m).map (·.reason)).count v))
    ∧ (valueCounts ((removal_report t m).map (·.reason))).Pairwise Rdesc
    ∧ ∀ p ∈ valueCounts ((removal_report t m).map (·.reason)),
        ("removed_" ++ p.1, MVal.rat (p.2 : ℚ)) ∈ summaryMetrics t m lc := by
  refine ⟨?_, ?_, ?_⟩
  · intro v n
    rw [mem_valueCounts]
    constructor
    · rintro ⟨hv, rfl⟩
      exact ⟨List.count_pos_iff.mpr hv, rfl⟩
    · rintro ⟨h1, rfl⟩
      exact ⟨List.count_pos_iff.mp h1, rfl⟩
  · apply valueCounts_pairwise_of_exec
    rw [reasons_eq]
    exact dedup_triple_pairwise _ _ _
  · intro p hp
    simp only [summaryMetrics]
    refine List.mem_append_right _ ?_
    exact List.mem_map.mpr ⟨p, hp, rfl⟩

/- ### GC percentage -/

theorem gc_count_all (l : List Char)
    (h : ∀ ch ∈ l, ch = 'G' ∨ ch = 'C' ∨ ch = 'g' ∨ ch = 'c') :
    (l.map Char.toUpper).count 'G' + (l.map Char.toUpper).count 'C' = l.length := by
  induction l with
  | nil => rfl
  | cons a as ih =>
    have ih' := ih (fun ch hch => h ch (List.mem_cons_of_mem _ hch))
    have ha := h a (List.mem_cons_self _ _)
    rcases ha with rfl | rfl | rfl | rfl <;>
      simp [List.count_cons, List.length_cons, Char.toUpper] <;> omega

/-- **C5.** For every retained record with a non-empty sequence, the
reported GC percentage equals (count of 'G' plus count of 'C' in the
uppercased sequence) divided by the sequence string's length, times 100;
and a sequence composed entirely of 'G'/'C' characters in either case
yields exactly 100. -/
theorem c5_gc_percentage (t : List Record) (m : Int) (r : Record)
    (hr : r ∈ finalKept t m) (hne : r.seq.toList.length ≠ 0) :
    gc_percentage r.seq
      = (((r.seq.toList.map Char.toUpper).count 'G'
          + (r.seq.toList.map Char.toUpper).count 'C' : ℚ))
        / (r.seq.toList.length : ℚ) * 100
    ∧ ((∀ ch ∈ r.seq.toList, ch = 'G' ∨ ch = 'C' ∨ ch = 'g' ∨ ch = 'c') →
        gc_percentage r.seq = 100) := by
  constructor
  · unfold gc_percentage
    push_cast
    ring
  · intro hall
    unfold gc_percentage
    have hcnt := gc_count_all r.seq.toList hall
    rw [← Nat.cast_add, hcnt]
    rw [div_self (by exact_mod_cast hne)]
    norm_num

/-- Witness for C5: the all-GC sequence `"gcgc"` is retained and its GC
percentage is exactly 100. -/
theorem c5_gc_percentage_witness :
    ((⟨"gcgc", 4⟩ : Record) ∈ finalKept [⟨"gcgc", 4⟩] 1)
    ∧ "gcgc".toList.length ≠ 0
    ∧ gc_percentage "gcgc" = 100 :=
  ⟨by decide, by decide,
    (c5_gc_percentage [⟨"gcgc", 4⟩] 1 ⟨"gcgc", 4⟩ (by decide) (by decide)).2
      (by decide)⟩

/- ### Degenerate standard deviation -/

/-- **C7.** When the final kept table has exactly one row, the metrics
report contains `std_<length column>` and `std_GC_percentage` with the
not-a-number value (sample standard deviation, divisor n-1, is undefined
for n = 1), rather than omitting them or reporting zero. -/
theorem c7_single_row_std_nan (t : List Record) (m : Int) (lc : String)
    (h1 : (finalKept t m).length = 1) :
    ("std_" ++ lc, MVal.nan) ∈ summaryMetrics t m lc
    ∧ ("std_GC_percentage", MVal.nan) ∈ summaryMetrics t m lc := by
  have hstd1 : colStd ((finalKept t m).map (fun r => (r.len : ℚ))) = .nan := by
    simp [colStd, h1]
  have hstd2 : colStd ((finalKept t m).map (fun r => gc_percentage r.seq)) = .nan := by
    simp [colStd, h1]
  constructor
  · simp only [summaryMetrics]
    rw [hstd1]
    simp
  · simp only [summaryMetrics]
    rw [hstd2]
    simp

/-- Witness for C7 on a one-row input. -/
theorem c7_single_row_std_nan_witness :
    (finalKept [⟨"ACGT", 4⟩] 3).length = 1
    ∧ ("std_length", MVal.nan) ∈ summaryMetrics [⟨"ACGT", 4⟩] 3 "length"
    ∧ ("std_GC_percentage", MVal.nan) ∈ summaryMetrics [⟨"ACGT", 4⟩] 3 "length" :=
  ⟨by decide,
    (c7_single_row_std_nan [⟨"ACGT", 4⟩] 3 "length" (by decide)).1,
    (c7_single_row_std_nan [⟨"ACGT", 4⟩] 3 "length" (by decide)).2⟩

/- ### fraction_rows -/

/-- **C9.** For every non-empty input table the metrics report carries
`removed_rows` equal to the row count of the removal report, and
`fraction_rows` equal to that count divided by the original row count
(counted before any filter ran) times 100, as an exact rational. -/
theorem c9_fraction_rows (t : List Record) (m : Int) (lc : String) (h : t ≠ []) :
    ("removed_rows", MVal.rat ((removal_report t m).length : ℚ)) ∈ summaryMetrics t m lc
    ∧ ("fraction_rows",
        MVal.rat (((removal_report t m).length : ℚ) / (t.length : ℚ) * 100))
        ∈ summaryMetrics t m lc := by
  constructor <;> simp [summaryMetrics]

/-- Witness for C9 on a non-empty input. -/
theorem c9_fraction_rows_witness :
    (([⟨"ACGT", 4⟩] : List Record) ≠ [])
    ∧ ("removed_rows", MVal.rat ((removal_report [⟨"ACGT", 4⟩] 3).length : ℚ))
        ∈ summaryMetrics [⟨"ACGT", 4⟩] 3 "length"
    ∧ ("fraction_rows", MVal.rat (((removal_report [⟨"ACGT", 4⟩] 3).length : ℚ)
        / (([⟨"ACGT", 4⟩] : List Record).length : ℚ) * 100))
        ∈ summaryMetrics [⟨"ACGT", 4⟩] 3 "length" :=
  ⟨by decide,
    (c9_fraction_rows [⟨"ACGT", 4⟩] 3 "length" (by decide)).1,
    (c9_fraction_rows [⟨"ACGT", 4⟩] 3 "length" (by decide)).2⟩

/- ### Error handling: no partial outputs -/

/-- **C8.** Every failing run — configuration error (missing column) or
data error (non-string sequence, incomparable length, zero-row division)
— aborts before any report is written: when the run ends with an error,
the list of written report files is empty, so neither
`QC_removal_report.tsv` nor `QC_metrics_report.csv` exists. -/
theorem c8_failed_run_writes_nothing (tbl : List RawRow) (seqCol lenCol : String)
    (m : Int) (e : QCError)
    (h : (runScript tbl seqCol lenCol m).2 = some e) :
    (runScript tbl seqCol lenCol m).1 = [] := by
  rcases hA : rawFilterAmbiguous tbl seqCol with e1 | ⟨d1, r1⟩
  · simp [runScript, hA]
  · rcases hB : rawFilterLength d1 lenCol m with e2 | ⟨d2, r2⟩
    · simp [runScript, hA, hB]
    · rcases hC : rawFilterDuplicate d2 seqCol with e3 | p3
      · simp [runScript, hA, hB, hC]
      · by_cases h0 : tbl.length = 0
        · simp [runScript, hA, hB, hC, h0]
        · simp [runScript, hA, hB, hC, h0] at h

/-- Witness for C8: the empty table fails with the division-by-zero error
of line 97 and writes nothing. -/
theorem c8_failed_run_writes_nothing_witness :
    (runScript [] "sequence" "length" 3).2 = some QCError.divisionByZero
    ∧ (runScript [] "sequence" "length" 3).1 = [] :=
  ⟨by rfl,
    c8_failed_run_writes_nothing [] "sequence" "length" 3 QCError.divisionByZero
      (by rfl)⟩

/-- **C10.** On an empty input table the computation of `fraction_rows`
divides by an original row count of zero with no guard, so the run stops
with a division-by-zero error and writes no metrics report (nor any other
report), even though each individual filter returns empty kept and
removed tables without error. -/
theorem c10_empty_input_division_error (seqCol lenCol : String) (m : Int) :
    runScript [] seqCol lenCol m = ([], some QCError.divisionByZero)
    ∧ rawFilterAmbiguous [] seqCol = .ok ([], [])
    ∧ rawFilterLength [] lenCol m = .ok ([], [])
    ∧ rawFilterDuplicate [] seqCol = .ok ([], []) :=
  ⟨rfl, rfl, rfl, rfl⟩

end QC
